import Mathlib

/-!
Shallow embedding of the dotted-key configuration loader
(src/src/lib.rs) together with theorems checking its natural-language
specification.

Conventions of the embedding:
* Rust strings are `List Char`; `str::trim` and the `splitn` family are
  re-implemented below on character lists.
* The linked list `ConfList` (a chain of `Node`s, each holding a key, a
  `RefCell`ed value and a `next` pointer) is the inductive `ConfList`.
  The in-place write through a `RefMut` obtained from `get` is rendered
  purely by `ConfList.updateFirst`, which replaces the value stored in
  the first node whose key matches.
* `f64` payloads are modelled as exact rationals (`Rat`); no claim in
  this development depends on floating-point rounding, infinities or NaN.
* `HashMap<String, SchemaType>` is modelled as a lookup function
  `List Char → Option SchemaType`; `HashMap::insert` overwrites, which
  the functional update reproduces.
* File access (`read_lines`) is modelled by an abstract file system
  `FS : List Char → Option (List (List Char))` mapping a path to its
  list of lines, `none` meaning the file is missing or unreadable.
* A Rust `panic!` (the `validate(...).unwrap()` call in `parse_conf`)
  is modelled by the `Except.error` branch of `parse_conf`, and kept
  distinct from a returned `Err` in the outcome type `POutcome`.
-/

namespace Conf

/-- Rust str::trim, restricted to the ASCII whitespace characters that
Lean's `Char.isWhitespace` recognises (space, tab, CR, LF). -/
def trim (s : List Char) : List Char :=
  ((s.dropWhile Char.isWhitespace).reverse.dropWhile Char.isWhitespace).reverse

/-- Rust s.splitn(2, sep): the pieces on either side of the first
occurrence of the character sep, or none when sep does not occur
(in which case Rust yields a single piece and the callers bail out). -/
def splitFirstChar (sep : Char) : List Char → Option (List Char × List Char)
  | [] => none
  | c :: cs =>
    if c = sep then some ([], cs)
    else (splitFirstChar sep cs).map fun p => (c :: p.1, p.2)

/-- Rust str::starts_with(char). -/
def startsWithChar (c : Char) : List Char → Bool
  | [] => false
  | x :: _ => x = c

/-- Whether the first list is an initial segment of the second. -/
def startsWithSeq : List Char → List Char → Bool
  | [], _ => true
  | _ :: _, [] => false
  | d :: ds, c :: cs => d = c && startsWithSeq ds cs

/-- Split at the first occurrence of a (non-empty) delimiter substring;
none when the delimiter does not occur. -/
def splitFirstSeq (delim : List Char) : List Char → Option (List Char × List Char)
  | [] => if startsWithSeq delim [] then some ([], []) else none
  | c :: cs =>
    if startsWithSeq delim (c :: cs) then some ([], (c :: cs).drop delim.length)
    else (splitFirstSeq delim cs).map fun p => (c :: p.1, p.2)

mutual
/-- enum ConfValue from src/src/lib.rs.  The f64 payload of
NumberValue is modelled as an exact rational. -/
inductive ConfValue : Type where
  | StrValue : List Char → ConfValue
  | BoolValue : Bool → ConfValue
  | NumberValue : Rat → ConfValue
  | Conf : ConfList → ConfValue

/-- struct ConfList: a singly linked list of Nodes, each Node holding a
key, a value and the next pointer.  `cons k v rest` is a Node. -/
inductive ConfList : Type where
  | nil : ConfList
  | cons : List Char → ConfValue → ConfList → ConfList
end

/-- ConfList::new(). -/
def ConfList.new : ConfList := ConfList.nil

/-- ConfList::contains_key: walks the list from the head and reports
whether some node carries the key. -/
def ConfList.contains_key : ConfList → List Char → Bool
  | ConfList.nil, _ => false
  | ConfList.cons k _ rest, key => if k = key then true else rest.contains_key key

/-- ConfList::get: walks the list from the head and returns the value of
the first node carrying the key (the Rust version hands out a RefMut;
the pure model returns the stored value). -/
def ConfList.get : ConfList → List Char → Option ConfValue
  | ConfList.nil, _ => none
  | ConfList.cons k v rest, key => if k = key then some v else rest.get key

/-- ConfList::insert: prepends a fresh node in front of the current head,
with no check whether the key is already present. -/
def ConfList.insert (l : ConfList) (key : List Char) (v : ConfValue) : ConfList :=
  ConfList.cons key v l

/-- Pure rendering of the RefCell write that add_value performs through
the RefMut returned by get: replace the value stored in the first node
whose key matches, leaving everything else untouched. -/
def ConfList.updateFirst : ConfList → List Char → ConfValue → ConfList
  | ConfList.nil, _, _ => ConfList.nil
  | ConfList.cons k v rest, key, newv =>
    if k = key then ConfList.cons k newv rest
    else ConfList.cons k v (rest.updateFirst key newv)

/-- ConfList::add_value (src/src/lib.rs lines 131-172): dotted-key
insertion.  splitn(2, '.') separates the head segment; a dotless key is
inserted (prepended) directly; otherwise the existing entry at the head
segment is inspected: an existing Conf is recursed into in place, an
existing scalar leads to a fresh child list that is then insert-ed
(prepended, the stale node staying behind in the list), and a missing
head segment likewise leads to a fresh child list.  The `none` inner
branch is unreachable because contains_key guards it.

The recursion of the source decreases the key (the tail after the first
dot is strictly shorter), which is not a structural decrease, so the
function carries an explicit bound `fuel` on the recursion depth; the
wrapper add_value below instantiates it with the always-sufficient
key.length + 1, and add_value_fuel_congr proves the bound irrelevant,
so the 0-fuel branch is never taken. -/
def ConfList.add_value_fuel : Nat → ConfList → List Char → ConfValue → ConfList
  | 0, l, _, _ => l
  | fuel + 1, l, key, v =>
    match splitFirstChar '.' key with
    | none => l.insert key v
    | some (hd, rest) =>
      if l.contains_key hd then
        match l.get hd with
        | some (ConfValue.Conf child) =>
          l.updateFirst hd (ConfValue.Conf (child.add_value_fuel fuel rest v))
        | some (ConfValue.StrValue _) =>
          l.insert hd (ConfValue.Conf (ConfList.new.add_value_fuel fuel rest v))
        | some (ConfValue.BoolValue _) =>
          l.insert hd (ConfValue.Conf (ConfList.new.add_value_fuel fuel rest v))
        | some (ConfValue.NumberValue _) =>
          l.insert hd (ConfValue.Conf (ConfList.new.add_value_fuel fuel rest v))
        | none => l
      else
        l.insert hd (ConfValue.Conf (ConfList.new.add_value_fuel fuel rest v))

/-- ConfList::add_value: the recursion-depth bound key.length + 1 is
always sufficient (see add_value_fuel_congr). -/
def ConfList.add_value (l : ConfList) (key : List Char) (v : ConfValue) : ConfList :=
  l.add_value_fuel (key.length + 1) key v

/-- enum ConfVecValue: the test-facing mirror of ConfValue produced by
to_vec. -/
inductive ConfVecValue : Type where
  | StrValue : List Char → ConfVecValue
  | BoolValue : Bool → ConfVecValue
  | NumberValue : Rat → ConfVecValue
  | Conf : List (List Char × ConfVecValue) → ConfVecValue

mutual
/-- The per-value part of ConfList::to_vec. -/
def ConfValue.toVecValue : ConfValue → ConfVecValue
  | ConfValue.StrValue s => ConfVecValue.StrValue s
  | ConfValue.BoolValue b => ConfVecValue.BoolValue b
  | ConfValue.NumberValue q => ConfVecValue.NumberValue q
  | ConfValue.Conf c => ConfVecValue.Conf c.to_vec

/-- ConfList::to_vec: walks the list head to tail, inserting each pair at
index 0, so the produced vector is the reverse of the list order. -/
def ConfList.to_vec : ConfList → List (List Char × ConfVecValue)
  | ConfList.nil => []
  | ConfList.cons k v rest => rest.to_vec ++ [(k, v.toVecValue)]
end

/-- enum SchemaType. -/
inductive SchemaType : Type where
  | String : SchemaType
  | Bool : SchemaType
  | Number : SchemaType
deriving DecidableEq

/-- impl FromStr for SchemaType. -/
def SchemaType.from_str (s : List Char) : Except (List Char) SchemaType :=
  if s = "string".data then Except.ok SchemaType.String
  else if s = "bool".data then Except.ok SchemaType.Bool
  else if s = "number".data then Except.ok SchemaType.Number
  else Except.error ("Invalid type: ".data ++ s)

/-- Value of a digit run, most significant first. -/
def digitsVal (ds : List Char) : Nat :=
  ds.foldl (fun a c => 10 * a + (c.toNat - 48)) 0

/-- Modelled from the spec (4.3) for the external std-library collaborator
f64::from_str used by validate: standard decimal parsing with optional
sign, fraction and exponent, evaluated exactly in the rationals.  The
special forms inf/infinity/NaN of the Rust parser have no rational value
and are not modelled; no claim exercises number coercion. -/
def f64_from_str (s : List Char) : Option Rat :=
  let sgnrest : Int × List Char :=
    match s with
    | '-' :: r => (-1, r)
    | '+' :: r => (1, r)
    | r => (1, r)
  let sgn := sgnrest.1
  let s1 := sgnrest.2
  let ip := s1.takeWhile Char.isDigit
  let s2 := s1.dropWhile Char.isDigit
  let fprest : List Char × List Char :=
    match s2 with
    | '.' :: r => (r.takeWhile Char.isDigit, r.dropWhile Char.isDigit)
    | r => ([], r)
  let fp := fprest.1
  let s3 := fprest.2
  if ip = [] && fp = [] then none
  else
    let mant : Rat := (sgn * (digitsVal (ip ++ fp) : Int) : Int) / ((10 : Rat) ^ fp.length)
    match s3 with
    | [] => some mant
    | e :: r =>
      if e = 'e' || e = 'E' then
        let esgnrest : Bool × List Char :=
          match r with
          | '-' :: rr => (false, rr)
          | '+' :: rr => (true, rr)
          | rr => (true, rr)
        let ed := esgnrest.2.takeWhile Char.isDigit
        if ed = [] || esgnrest.2.dropWhile Char.isDigit ≠ [] then none
        else if esgnrest.1 then some (mant * (10 : Rat) ^ digitsVal ed)
        else some (mant / (10 : Rat) ^ digitsVal ed)
      else none

/-- fn validate (src/src/lib.rs lines 264-280): coerce a raw value under a
declared schema type.  Rust returns Result<ConfValue, String>. -/
def validate (s : List Char) (t : SchemaType) : Except (List Char) ConfValue :=
  match t with
  | SchemaType.String => Except.ok (ConfValue.StrValue s)
  | SchemaType.Bool =>
    if s = "true".data then Except.ok (ConfValue.BoolValue true)
    else if s = "false".data then Except.ok (ConfValue.BoolValue false)
    else Except.error "Invalid boolean value".data
  | SchemaType.Number =>
    match f64_from_str s with
    | some q => Except.ok (ConfValue.NumberValue q)
    | none => Except.error "Invalid number value".data

/-- HashMap<String, SchemaType> modelled as a lookup function. -/
def Schema : Type := List Char → Option SchemaType

/-- HashMap::new(). -/
def Schema.empty : Schema := fun _ => none

/-- HashMap::insert: overwrites the binding at an already-present key. -/
def Schema.insert (m : Schema) (k : List Char) (ty : SchemaType) : Schema :=
  fun q => if q = k then some ty else m q

/-- fn parse_line (src/src/lib.rs lines 299-317).  Note that the emptiness
and comment checks look at the trimmed line while splitn runs on the
original line, exactly as in the source. -/
def parse_line (line : List Char) : Option (List Char × List Char) :=
  let l := trim line
  if l = [] then none
  else if startsWithChar '#' l || startsWithChar ';' l then none
  else
    match splitFirstChar '=' line with
    | none => none
    | some (a, b) =>
      let key := trim a
      let value := trim b
      if key = [] || value = [] then none
      else some (key, value)

/-- fn split_by_str (src/src/lib.rs lines 319-326): a contains check
followed by a regex splitn(2) at the delimiter; the only delimiter used,
the arrow, has no regex metacharacters, so both steps collapse to
splitting at the first literal occurrence. -/
def split_by_str (s delim : List Char) : Option (List (List Char)) :=
  (splitFirstSeq delim s).map fun p => [p.1, p.2]

/-- fn parse_schema_line (src/src/lib.rs lines 328-343): the same trimming
and emptiness rules as parse_line but splitting the trimmed line on the
arrow, and with no comment check. -/
def parse_schema_line (line : List Char) : Option (List Char × List Char) :=
  let l := trim line
  if l = [] then none
  else
    match split_by_str l "->".data with
    | none => none
    | some vec =>
      match vec with
      | [a, b] =>
        let key := trim a
        let value := trim b
        if key = [] || value = [] then none
        else some (key, value)
      | _ => none

/-- Abstract file system backing read_lines: a path is mapped to the list
of lines of the file, or to none when the file is missing/unreadable. -/
def FS : Type := List Char → Option (List (List Char))

/-- fn read_lines: io::Result modelled as Option. -/
def read_lines (fs : FS) (file_path : List Char) : Option (List (List Char)) :=
  fs file_path

/-- The per-line body of the loop in fn parse_conf.  The Rust source asks
schema.contains_key(key) and then schema.get(key).unwrap(); in the
functional model of the HashMap both collapse to a single lookup.  The
Except.error branch models the panic of validate(value, ...).unwrap(). -/
def process_line (schema : Schema) (m : ConfList) (line : List Char) :
    Except (List Char) ConfList :=
  match parse_line line with
  | none => Except.ok m
  | some (key, value) =>
    match schema key with
    | some t =>
      match validate value t with
      | Except.ok tv => Except.ok (m.add_value key tv)
      | Except.error e => Except.error e
    | none => Except.ok (m.add_value key (ConfValue.StrValue value))

/-- The line loop of fn parse_conf; an error (a panic in the source)
aborts the remaining lines. -/
def parse_conf_lines (schema : Schema) : ConfList → List (List Char) → Except (List Char) ConfList
  | m, [] => Except.ok m
  | m, line :: rest =>
    match process_line schema m line with
    | Except.ok m2 => parse_conf_lines schema m2 rest
    | Except.error e => Except.error e

/-- fn parse_conf (src/src/lib.rs lines 245-262).  The source reads
`if let Ok(lines) = read_lines(file_path)` with no else branch: an IO
failure is silently ignored and the empty map is returned. -/
def parse_conf (fs : FS) (file_path : List Char) (schema : Schema) :
    Except (List Char) ConfList :=
  match read_lines fs file_path with
  | some lines => parse_conf_lines schema ConfList.new lines
  | none => Except.ok ConfList.new

/-- The line loop of fn parse_schema; the `?` on t.parse::<SchemaType>()
propagates the first unknown type name, aborting the loop. -/
def parse_schema_lines : Schema → List (List Char) → Except (List Char) Schema
  | m, [] => Except.ok m
  | m, line :: rest =>
    match parse_schema_line line with
    | none => parse_schema_lines m rest
    | some (k, t) =>
      match SchemaType.from_str t with
      | Except.ok ty => parse_schema_lines (m.insert k ty) rest
      | Except.error e => Except.error e

/-- fn parse_schema (src/src/lib.rs lines 282-296).  As in parse_conf, an
IO failure on the schema file is silently ignored (empty schema). -/
def parse_schema (fs : FS) (file_path : List Char) : Except (List Char) Schema :=
  match read_lines fs file_path with
  | some lines => parse_schema_lines Schema.empty lines
  | none => Except.ok Schema.empty

/-- The observable outcome of pub fn parse: a returned Ok tree, a returned
Err (only ever produced by schema loading), or a panic escaping from
parse_conf (the unwrap on a failed validation). -/
inductive POutcome : Type where
  | ok : ConfList → POutcome
  | err : List Char → POutcome
  | panics : List Char → POutcome

/-- Whether an outcome is an error returned through the Result of pub fn
parse, as opposed to an Ok return or an escaping panic. -/
def POutcome.is_err_return : POutcome → Bool
  | POutcome.err _ => true
  | _ => false

/-- pub fn parse (src/src/lib.rs lines 237-243). -/
def parse (fs : FS) (file_path : List Char) (schema_path : Option (List Char)) : POutcome :=
  match (match schema_path with
         | some p => parse_schema fs p
         | none => Except.ok Schema.empty) with
  | Except.error e => POutcome.err e
  | Except.ok schema =>
    match parse_conf fs file_path schema with
    | Except.ok t => POutcome.ok t
    | Except.error e => POutcome.panics e

/-- The dot-separated segments of a key, in order.  Splitting the empty
key gives the single empty segment, matching what repeated splitn(2)
calls on '.' produce. -/
def splitAllDot : List Char → List (List Char)
  | [] => [[]]
  | c :: cs =>
    let r := splitAllDot cs
    if c = '.' then [] :: r
    else (c :: r.headI) :: r.tail

/-- Spec-side lookup along a list of path segments: get on each segment,
narrowing through tables, with the final segment looked up directly
(claims C4, C5, C7). -/
def ConfList.get_segs : ConfList → List (List Char) → Option ConfValue
  | _, [] => none
  | l, [seg] => l.get seg
  | l, seg :: rest =>
    match l.get seg with
    | some (ConfValue.Conf child) => child.get_segs rest
    | _ => none

/-- Spec-side lookup along a dotted path (claims C4, C5): get on each
dot-separated segment of the key, narrowing through tables. -/
def ConfList.get_path (l : ConfList) (key : List Char) : Option ConfValue :=
  l.get_segs (splitAllDot key)

/-- The first dot-separated segment of a key (the segment that an
add_value call on the key touches at the current level). -/
def headSeg (key : List Char) : List Char :=
  match splitFirstChar '.' key with
  | none => key
  | some (hd, _) => hd

/-- A scalar is any non-table value (spec glossary). -/
def ConfValue.is_scalar : ConfValue → Bool
  | ConfValue.Conf _ => false
  | _ => true

/-- The tokenizer behaviour exactly as claim C8 words it: None for a line
blank after trimming, for a trimmed line starting with a hash or
semicolon, and when splitting on the first equals sign does not yield
exactly two pieces non-empty after trimming; otherwise Some of the
trimmed key and trimmed value. -/
def parse_line_claim (line : List Char) : Option (List Char × List Char) :=
  if trim line = [] then none
  else if (trim line).head? = some '#' ∨ (trim line).head? = some ';' then none
  else
    match splitFirstChar '=' line with
    | none => none
    | some (a, b) =>
      if trim a = [] ∨ trim b = [] then none
      else some (trim a, trim b)

/-- The type token of the last schema line declaring a given key
(claim C10). -/
def last_decl (k : List Char) : List (List Char) → Option (List Char)
  | [] => none
  | line :: rest =>
    match last_decl k rest with
    | some t => some t
    | none =>
      match parse_schema_line line with
      | some (q, t) => if q = k then some t else none
      | none => none

/-- Every schema line either tokenizes to a declaration whose type name is
accepted by from_str, or is skipped by the tokenizer (claim C10). -/
def schema_lines_ok (lines : List (List Char)) : Bool :=
  lines.all fun line =>
    match parse_schema_line line with
    | none => true
    | some (_, t) =>
      match SchemaType.from_str t with
      | Except.ok _ => true
      | Except.error _ => false

/-! ### Helper lemmas -/

/-- The tail returned by splitFirstChar is strictly shorter than the
input. -/
theorem splitFirstChar_rest_length (sep : Char) :
    ∀ (s a b : List Char), splitFirstChar sep s = some (a, b) → b.length < s.length := by
  intro s
  induction s with
  | nil => intro a b h; simp [splitFirstChar] at h
  | cons c cs ih =>
    intro a b h
    by_cases hc : c = sep
    · rw [splitFirstChar, if_pos hc] at h
      have hb : cs = b := congrArg (fun p => p.2) (Option.some.inj h)
      rw [← hb]
      simp
    · rw [splitFirstChar, if_neg hc] at h
      cases hcs : splitFirstChar sep cs with
      | none => rw [hcs] at h; simp at h
      | some p =>
        rw [hcs, Option.map_some'] at h
        have hb : p.2 = b := congrArg (fun q => q.2) (Option.some.inj h)
        rw [← hb]
        have := ih p.1 p.2 hcs
        simp only [List.length_cons]
        omega

/-- The recursion-depth bound of add_value_fuel is irrelevant as long as
it exceeds the key length. -/
theorem ConfList.add_value_fuel_congr :
    ∀ (f1 : Nat) (l : ConfList) (key : List Char) (v : ConfValue) (f2 : Nat),
      key.length < f1 → key.length < f2 →
      l.add_value_fuel f1 key v = l.add_value_fuel f2 key v := by
  intro f1
  induction f1 with
  | zero => intro l key v f2 h1 _; omega
  | succ g1 ih =>
    intro l key v f2 h1 h2
    cases f2 with
    | zero => omega
    | succ g2 =>
      cases hsp : splitFirstChar '.' key with
      | none => simp only [ConfList.add_value_fuel, hsp]
      | some p =>
        obtain ⟨hd, rest⟩ := p
        have hr : rest.length < key.length := splitFirstChar_rest_length '.' key hd rest hsp
        simp only [ConfList.add_value_fuel, hsp]
        by_cases hck : l.contains_key hd
        · simp only [hck, if_true]
          cases hg : l.get hd with
          | none => rfl
          | some w =>
            cases w with
            | Conf child => simp only [ih child rest v g2 (by omega) (by omega)]
            | StrValue s => simp only [ih ConfList.new rest v g2 (by omega) (by omega)]
            | BoolValue b => simp only [ih ConfList.new rest v g2 (by omega) (by omega)]
            | NumberValue q => simp only [ih ConfList.new rest v g2 (by omega) (by omega)]
        · simp [hck, ih ConfList.new rest v g2 (by omega) (by omega)]

/-- add_value on a dotless key is a plain (prepending) insert. -/
theorem ConfList.add_value_leaf (l : ConfList) (key : List Char) (v : ConfValue)
    (h : splitFirstChar '.' key = none) : l.add_value key v = l.insert key v := by
  simp only [ConfList.add_value, ConfList.add_value_fuel, h]

/-- A node holding some value makes contains_key true. -/
theorem ConfList.get_some_contains :
    ∀ (l : ConfList) (k : List Char) (w : ConfValue),
      l.get k = some w → l.contains_key k = true
  | ConfList.nil, k, w, h => by simp [ConfList.get] at h
  | ConfList.cons k0 v0 rest, k, w, h => by
    by_cases hk : k0 = k
    · simp [ConfList.contains_key, hk]
    · rw [ConfList.get, if_neg hk] at h
      rw [ConfList.contains_key, if_neg hk]
      exact ConfList.get_some_contains rest k w h

/-- contains_key true yields a value through get. -/
theorem ConfList.contains_get_some :
    ∀ (l : ConfList) (k : List Char),
      l.contains_key k = true → ∃ w, l.get k = some w
  | ConfList.nil, k, h => by simp [ConfList.contains_key] at h
  | ConfList.cons k0 v0 rest, k, h => by
    by_cases hk : k0 = k
    · exact ⟨v0, by rw [ConfList.get, if_pos hk]⟩
    · rw [ConfList.contains_key, if_neg hk] at h
      obtain ⟨w, hw⟩ := ConfList.contains_get_some rest k h
      exact ⟨w, by rw [ConfList.get, if_neg hk]; exact hw⟩

/-- Updating the first node at a present key is what get then sees. -/
theorem ConfList.updateFirst_get_self :
    ∀ (l : ConfList) (k : List Char) (w newv : ConfValue),
      l.get k = some w → (l.updateFirst k newv).get k = some newv
  | ConfList.nil, k, w, newv, h => by simp [ConfList.get] at h
  | ConfList.cons k0 v0 rest, k, w, newv, h => by
    by_cases hk : k0 = k
    · rw [ConfList.updateFirst, if_pos hk, ConfList.get, if_pos hk]
    · rw [ConfList.get, if_neg hk] at h
      rw [ConfList.updateFirst, if_neg hk, ConfList.get, if_neg hk]
      exact ConfList.updateFirst_get_self rest k w newv h

/-- updateFirst leaves every other key unchanged under get. -/
theorem ConfList.updateFirst_get_other :
    ∀ (l : ConfList) (k q : List Char) (newv : ConfValue),
      q ≠ k → (l.updateFirst k newv).get q = l.get q
  | ConfList.nil, _, _, _, _ => rfl
  | ConfList.cons k0 v0 rest, k, q, newv, hqk => by
    by_cases hk : k0 = k
    · have hq : ¬ k0 = q := fun hc => hqk (hc ▸ hk)
      rw [ConfList.updateFirst, if_pos hk, ConfList.get, if_neg hq, ConfList.get, if_neg hq]
    · rw [ConfList.updateFirst, if_neg hk]
      by_cases hq : k0 = q
      · rw [ConfList.get, if_pos hq, ConfList.get, if_pos hq]
      · rw [ConfList.get, if_neg hq, ConfList.get, if_neg hq]
        exact ConfList.updateFirst_get_other rest k q newv hqk

/-- updateFirst does not change the enumerated key sequence of a level. -/
theorem ConfList.updateFirst_to_vec_keys :
    ∀ (l : ConfList) (k : List Char) (newv : ConfValue),
      ((l.updateFirst k newv).to_vec).map Prod.fst = (l.to_vec).map Prod.fst
  | ConfList.nil, _, _ => rfl
  | ConfList.cons k0 v0 rest, k, newv => by
    by_cases hk : k0 = k
    · rw [ConfList.updateFirst, if_pos hk]
      simp [ConfList.to_vec]
    · rw [ConfList.updateFirst, if_neg hk]
      simp [ConfList.to_vec, ConfList.updateFirst_to_vec_keys rest k newv]

/-- add_value through an existing table entry is an in-place update of
the first node at the head segment. -/
theorem ConfList.add_value_step_conf (l : ConfList) (key hd rest : List Char) (v : ConfValue)
    (child : ConfList) (hsp : splitFirstChar '.' key = some (hd, rest))
    (hg : l.get hd = some (ConfValue.Conf child)) :
    l.add_value key v = l.updateFirst hd (ConfValue.Conf (child.add_value rest v)) := by
  have hck : l.contains_key hd = true := ConfList.get_some_contains l hd _ hg
  have hr : rest.length < key.length := splitFirstChar_rest_length '.' key hd rest hsp
  show l.add_value_fuel (key.length + 1) key v
      = l.updateFirst hd (ConfValue.Conf (child.add_value_fuel (rest.length + 1) rest v))
  rw [ConfList.add_value_fuel_congr (rest.length + 1) child rest v key.length
    (by omega) (by omega)]
  simp only [ConfList.add_value_fuel, hsp, hck, if_true, hg]

/-- add_value through an existing scalar entry prepends a fresh table
node built from scratch; the stale scalar node stays in the list. -/
theorem ConfList.add_value_step_scalar (l : ConfList) (key hd rest : List Char) (v w : ConfValue)
    (hsp : splitFirstChar '.' key = some (hd, rest))
    (hg : l.get hd = some w) (hw : w.is_scalar = true) :
    l.add_value key v = l.insert hd (ConfValue.Conf (ConfList.new.add_value rest v)) := by
  have hck : l.contains_key hd = true := ConfList.get_some_contains l hd _ hg
  have hr : rest.length < key.length := splitFirstChar_rest_length '.' key hd rest hsp
  show l.add_value_fuel (key.length + 1) key v
      = l.insert hd (ConfValue.Conf (ConfList.new.add_value_fuel (rest.length + 1) rest v))
  rw [ConfList.add_value_fuel_congr (rest.length + 1) ConfList.new rest v key.length
    (by omega) (by omega)]
  cases w with
  | Conf c => simp [ConfValue.is_scalar] at hw
  | StrValue s => simp only [ConfList.add_value_fuel, hsp, hck, if_true, hg]
  | BoolValue b => simp only [ConfList.add_value_fuel, hsp, hck, if_true, hg]
  | NumberValue q => simp only [ConfList.add_value_fuel, hsp, hck, if_true, hg]

/-- add_value with no entry at the head segment prepends a fresh table
node built from scratch. -/
theorem ConfList.add_value_step_missing (l : ConfList) (key hd rest : List Char) (v : ConfValue)
    (hsp : splitFirstChar '.' key = some (hd, rest))
    (hck : l.contains_key hd = false) :
    l.add_value key v = l.insert hd (ConfValue.Conf (ConfList.new.add_value rest v)) := by
  have hr : rest.length < key.length := splitFirstChar_rest_length '.' key hd rest hsp
  show l.add_value_fuel (key.length + 1) key v
      = l.insert hd (ConfValue.Conf (ConfList.new.add_value_fuel (rest.length + 1) rest v))
  rw [ConfList.add_value_fuel_congr (rest.length + 1) ConfList.new rest v key.length
    (by omega) (by omega)]
  simp only [ConfList.add_value_fuel, hsp, hck]
  simp

/-- A key with no dot is its own single segment. -/
theorem splitAllDot_of_none :
    ∀ (key : List Char), splitFirstChar '.' key = none → splitAllDot key = [key] := by
  intro key
  induction key with
  | nil => intro _; rfl
  | cons c cs ih =>
    intro h
    rw [splitFirstChar] at h
    by_cases hc : c = '.'
    · rw [if_pos hc] at h; cases h
    · rw [if_neg hc] at h
      cases hcs : splitFirstChar '.' cs with
      | some p => rw [hcs] at h; simp at h
      | none =>
        rw [splitAllDot]
        simp only [if_neg hc, ih hcs]
        rfl

/-- Splitting off the first segment and then splitting the tail gives all
segments. -/
theorem splitAllDot_of_some :
    ∀ (key hd rest : List Char), splitFirstChar '.' key = some (hd, rest) →
      splitAllDot key = hd :: splitAllDot rest := by
  intro key
  induction key with
  | nil => intro hd rest h; simp [splitFirstChar] at h
  | cons c cs ih =>
    intro hd rest h
    rw [splitFirstChar] at h
    by_cases hc : c = '.'
    · rw [if_pos hc] at h
      have h1 : [] = hd := congrArg (fun p => p.1) (Option.some.inj h)
      have h2 : cs = rest := congrArg (fun p => p.2) (Option.some.inj h)
      rw [splitAllDot, if_pos hc, ← h1, ← h2]
    · rw [if_neg hc] at h
      cases hcs : splitFirstChar '.' cs with
      | none => rw [hcs] at h; simp at h
      | some p =>
        rw [hcs, Option.map_some'] at h
        have h1 : c :: p.1 = hd := congrArg (fun q => q.1) (Option.some.inj h)
        have h2 : p.2 = rest := congrArg (fun q => q.2) (Option.some.inj h)
        rw [splitAllDot, if_neg hc, ih p.1 p.2 (by rw [hcs]), ← h1, ← h2]
        rfl

/-- splitAllDot never returns the empty segment list. -/
theorem splitAllDot_ne_nil : ∀ (s : List Char), ∃ a l2, splitAllDot s = a :: l2 := by
  intro s
  cases s with
  | nil => exact ⟨[], [], rfl⟩
  | cons c cs =>
    rw [splitAllDot]
    by_cases hc : c = '.'
    · rw [if_pos hc]; exact ⟨_, _, rfl⟩
    · rw [if_neg hc]; exact ⟨_, _, rfl⟩

/-- get finds nothing exactly when contains_key is false. -/
theorem ConfList.get_none_contains (l : ConfList) (k : List Char) (h : l.get k = none) :
    l.contains_key k = false := by
  cases hck : l.contains_key k
  · rfl
  · obtain ⟨w, hw⟩ := ConfList.contains_get_some l k hck
    rw [hw] at h
    cases h

/-- Walking a freshly prepended table node consumes the head segment. -/
theorem ConfList.insert_get_segs_cons (l : ConfList) (hd s : List Char)
    (ss : List (List Char)) (X : ConfList) :
    (l.insert hd (ConfValue.Conf X)).get_segs (hd :: s :: ss) = X.get_segs (s :: ss) := by
  simp [ConfList.get_segs, ConfList.insert, ConfList.get]

/-- Round-trip auxiliary, by induction on a bound of the key length:
after add_value, following the dot-separated segments of the inserted
key through get finds exactly the inserted value. -/
theorem add_value_get_segs_aux :
    ∀ (n : Nat) (key : List Char), key.length ≤ n → ∀ (l : ConfList) (v : ConfValue),
      (l.add_value key v).get_segs (splitAllDot key) = some v := by
  intro n
  induction n with
  | zero =>
    intro key hlen l v
    have hk : key = [] := List.eq_nil_of_length_eq_zero (Nat.le_zero.mp hlen)
    subst hk
    rw [ConfList.add_value_leaf l [] v rfl]
    simp [splitAllDot, ConfList.get_segs, ConfList.insert, ConfList.get]
  | succ n ih =>
    intro key hlen l v
    cases hsp : splitFirstChar '.' key with
    | none =>
      rw [ConfList.add_value_leaf l key v hsp, splitAllDot_of_none key hsp]
      simp [ConfList.get_segs, ConfList.get, ConfList.insert]
    | some p =>
      obtain ⟨hd, rest⟩ := p
      have hr : rest.length < key.length := splitFirstChar_rest_length '.' key hd rest hsp
      rw [splitAllDot_of_some key hd rest hsp]
      obtain ⟨s, ss, hss⟩ := splitAllDot_ne_nil rest
      have ihr := ih rest (by omega)
      cases hg : l.get hd with
      | none =>
        have hck : l.contains_key hd = false := ConfList.get_none_contains l hd hg
        rw [ConfList.add_value_step_missing l key hd rest v hsp hck, hss,
          ConfList.insert_get_segs_cons, ← hss]
        exact ihr ConfList.new v
      | some w =>
        cases w with
        | Conf child =>
          rw [ConfList.add_value_step_conf l key hd rest v child hsp hg, hss]
          have hself := ConfList.updateFirst_get_self l hd (ConfValue.Conf child)
            (ConfValue.Conf (child.add_value rest v)) hg
          simp only [ConfList.get_segs, hself]
          rw [← hss]
          exact ihr child v
        | StrValue str =>
          rw [ConfList.add_value_step_scalar l key hd rest v _ hsp hg rfl, hss,
            ConfList.insert_get_segs_cons, ← hss]
          exact ihr ConfList.new v
        | BoolValue b =>
          rw [ConfList.add_value_step_scalar l key hd rest v _ hsp hg rfl, hss,
            ConfList.insert_get_segs_cons, ← hss]
          exact ihr ConfList.new v
        | NumberValue q =>
          rw [ConfList.add_value_step_scalar l key hd rest v _ hsp hg rfl, hss,
            ConfList.insert_get_segs_cons, ← hss]
          exact ihr ConfList.new v

/-- Inserting along a dotted key touches only the head segment of that
key at the current level: every other key keeps its get result. -/
theorem ConfList.add_value_get_frame (c : ConfList) (rest : List Char) (v : ConfValue)
    (seg : List Char) (h : seg ≠ headSeg rest) :
    (c.add_value rest v).get seg = c.get seg := by
  cases hsp : splitFirstChar '.' rest with
  | none =>
    have hh : headSeg rest = rest := by rw [headSeg, hsp]
    rw [hh] at h
    rw [ConfList.add_value_leaf c rest v hsp, ConfList.insert, ConfList.get,
      if_neg (fun hc => h hc.symm)]
  | some p =>
    obtain ⟨r0, rr⟩ := p
    have hh : headSeg rest = r0 := by rw [headSeg, hsp]
    rw [hh] at h
    cases hg : c.get r0 with
    | none =>
      have hck : c.contains_key r0 = false := ConfList.get_none_contains c r0 hg
      rw [ConfList.add_value_step_missing c rest r0 rr v hsp hck, ConfList.insert,
        ConfList.get, if_neg (fun hc => h hc.symm)]
    | some w =>
      cases w with
      | Conf child =>
        rw [ConfList.add_value_step_conf c rest r0 rr v child hsp hg]
        exact ConfList.updateFirst_get_other c r0 seg _ h
      | StrValue str =>
        rw [ConfList.add_value_step_scalar c rest r0 rr v _ hsp hg rfl, ConfList.insert,
          ConfList.get, if_neg (fun hc => h hc.symm)]
      | BoolValue b =>
        rw [ConfList.add_value_step_scalar c rest r0 rr v _ hsp hg rfl, ConfList.insert,
          ConfList.get, if_neg (fun hc => h hc.symm)]
      | NumberValue q =>
        rw [ConfList.add_value_step_scalar c rest r0 rr v _ hsp hg rfl, ConfList.insert,
          ConfList.get, if_neg (fun hc => h hc.symm)]

/-- The schema line loop processes a concatenation left to right,
stopping at the first failure. -/
theorem parse_schema_lines_append :
    ∀ (xs ys : List (List Char)) (s : Schema),
      parse_schema_lines s (xs ++ ys) =
        match parse_schema_lines s xs with
        | Except.ok m => parse_schema_lines m ys
        | Except.error e => Except.error e := by
  intro xs
  induction xs with
  | nil => intro ys s; rfl
  | cons line rest ih =>
    intro ys s
    cases hpl : parse_schema_line line with
    | none =>
      simp only [List.cons_append, parse_schema_lines, hpl]
      exact ih ys s
    | some p =>
      obtain ⟨k, t⟩ := p
      cases hty : SchemaType.from_str t with
      | ok ty =>
        simp only [List.cons_append, parse_schema_lines, hpl, hty]
        exact ih ys (s.insert k ty)
      | error e =>
        simp only [List.cons_append, parse_schema_lines, hpl, hty]

/-- The config line loop processes a concatenation left to right,
stopping at the first failure. -/
theorem parse_conf_lines_append :
    ∀ (xs ys : List (List Char)) (schema : Schema) (m : ConfList),
      parse_conf_lines schema m (xs ++ ys) =
        match parse_conf_lines schema m xs with
        | Except.ok m2 => parse_conf_lines schema m2 ys
        | Except.error e => Except.error e := by
  intro xs
  induction xs with
  | nil => intro ys schema m; rfl
  | cons line rest ih =>
    intro ys schema m
    cases hpl : process_line schema m line with
    | ok m2 =>
      simp only [List.cons_append, parse_conf_lines, hpl]
      exact ih ys schema m2
    | error e =>
      simp only [List.cons_append, parse_conf_lines, hpl]

/-- When every schema line is either skipped or declares a known type,
the schema loop cannot fail. -/
theorem parse_schema_lines_total :
    ∀ (lines : List (List Char)) (m : Schema), schema_lines_ok lines = true →
      ∃ m2, parse_schema_lines m lines = Except.ok m2 := by
  intro lines
  induction lines with
  | nil => intro m _; exact ⟨m, rfl⟩
  | cons line rest ih =>
    intro m hok
    simp only [schema_lines_ok, List.all_cons, Bool.and_eq_true] at hok
    obtain ⟨h1, h2⟩ := hok
    have h2a : schema_lines_ok rest = true := h2
    cases hpl : parse_schema_line line with
    | none =>
      simp only [parse_schema_lines, hpl]
      exact ih m h2a
    | some p =>
      obtain ⟨k, t⟩ := p
      simp only [hpl] at h1
      cases hty : SchemaType.from_str t with
      | ok ty =>
        simp only [parse_schema_lines, hpl, hty]
        exact ih (m.insert k ty) h2a
      | error e => simp [hty] at h1

/-- When no remaining schema line declares the key, the schema loop
leaves its binding unchanged. -/
theorem parse_schema_lines_no_decl :
    ∀ (lines : List (List Char)) (m m2 : Schema) (k : List Char),
      last_decl k lines = none → parse_schema_lines m lines = Except.ok m2 →
      m2 k = m k := by
  intro lines
  induction lines with
  | nil =>
    intro m m2 k _ hrun
    cases hrun
    rfl
  | cons line rest ih =>
    intro m m2 k hld hrun
    rw [last_decl] at hld
    rw [parse_schema_lines] at hrun
    cases hldr : last_decl k rest with
    | some t => simp [hldr] at hld
    | none =>
      simp only [hldr] at hld
      cases hpl : parse_schema_line line with
      | none =>
        simp only [hpl] at hld hrun
        exact ih m m2 k hldr hrun
      | some p =>
        obtain ⟨q, t⟩ := p
        simp only [hpl] at hld hrun
        have hqk : ¬ q = k := by
          intro hc
          rw [if_pos hc] at hld
          exact Option.noConfusion hld
        cases hty : SchemaType.from_str t with
        | ok ty =>
          simp only [hty] at hrun
          have hm := ih (m.insert q ty) m2 k hldr hrun
          rw [hm, Schema.insert, if_neg (fun hc => hqk hc.symm)]
        | error e => simp [hty] at hrun

/-- When the last declaration of a key in the schema source carries a
valid type name, a successful run of the schema loop binds the key to
exactly that type. -/
theorem parse_schema_lines_last_decl :
    ∀ (lines : List (List Char)) (m m2 : Schema) (k t : List Char) (ty : SchemaType),
      last_decl k lines = some t → SchemaType.from_str t = Except.ok ty →
      parse_schema_lines m lines = Except.ok m2 → m2 k = some ty := by
  intro lines
  induction lines with
  | nil => intro m m2 k t ty hld _ _; cases hld
  | cons line rest ih =>
    intro m m2 k t ty hld hty hrun
    rw [last_decl] at hld
    rw [parse_schema_lines] at hrun
    cases hldr : last_decl k rest with
    | some t2 =>
      simp only [hldr] at hld
      have ht2 : t2 = t := Option.some.inj hld
      subst ht2
      cases hpl : parse_schema_line line with
      | none =>
        simp only [hpl] at hrun
        exact ih m m2 k t2 ty hldr hty hrun
      | some p =>
        obtain ⟨q, t3⟩ := p
        simp only [hpl] at hrun
        cases hty3 : SchemaType.from_str t3 with
        | ok ty3 =>
          simp only [hty3] at hrun
          exact ih (m.insert q ty3) m2 k t2 ty hldr hty hrun
        | error e => simp [hty3] at hrun
    | none =>
      simp only [hldr] at hld
      cases hpl : parse_schema_line line with
      | none => simp [hpl] at hld
      | some p =>
        obtain ⟨q, t3⟩ := p
        simp only [hpl] at hld hrun
        by_cases hqk : q = k
        · rw [if_pos hqk] at hld
          have ht3 : t3 = t := Option.some.inj hld
          rw [ht3, hty] at hrun
          have hm := parse_schema_lines_no_decl rest (m.insert q ty) m2 k hldr hrun
          rw [hm, Schema.insert, if_pos hqk.symm]
        · rw [if_neg hqk] at hld
          exact Option.noConfusion hld

/-- startsWithChar agrees with head?. -/
theorem startsWithChar_head (c : Char) (l : List Char) :
    startsWithChar c l = true ↔ l.head? = some c := by
  cases l with
  | nil => simp [startsWithChar]
  | cons x xs => simp [startsWithChar]

/-! ### Claims -/

/-- Claim C1, counterexample: inserting a value at the leaf key a twice
makes to_vec list the segment a twice at the top level, where the claim
demands each key segment at most once. -/
theorem c1_leaf_reinsertion_duplicates :
    ¬ (List.count "a".data (List.map Prod.fst
      (((ConfList.new.add_value "a".data (ConfValue.StrValue "1".data)).add_value
        "a".data (ConfValue.StrValue "2".data)).to_vec)) ≤ 1) := by
  decide

/-- Claim C1 as amended: insert prepends unconditionally, so re-inserting
an existing leaf key adds a second entry for that segment; the new entry
shadows the prior one for get (the walk from the head stops at the first
match), but to_vec keeps enumerating the stale entry as well. -/
theorem c1_leaf_insert_prepends (l : ConfList) (k : List Char) (v : ConfValue)
    (h : splitFirstChar '.' k = none) :
    (l.add_value k v).get k = some v ∧
    (l.add_value k v).to_vec = l.to_vec ++ [(k, v.toVecValue)] := by
  rw [ConfList.add_value_leaf l k v h]
  exact ⟨by rw [ConfList.insert, ConfList.get, if_pos rfl], rfl⟩

/-- Witness for the amended claim C1 at a level already holding the key. -/
theorem c1_leaf_insert_prepends_witness :
    ((ConfList.cons "a".data (ConfValue.StrValue "1".data) ConfList.nil).add_value
        "a".data (ConfValue.StrValue "2".data)).get "a".data
      = some (ConfValue.StrValue "2".data) ∧
    ((ConfList.cons "a".data (ConfValue.StrValue "1".data) ConfList.nil).add_value
        "a".data (ConfValue.StrValue "2".data)).to_vec
      = (ConfList.cons "a".data (ConfValue.StrValue "1".data) ConfList.nil).to_vec
        ++ [("a".data, ConfValue.toVecValue (ConfValue.StrValue "2".data))] :=
  c1_leaf_insert_prepends
    (ConfList.cons "a".data (ConfValue.StrValue "1".data) ConfList.nil)
    "a".data (ConfValue.StrValue "2".data) (by decide)

/-- Claim C2, counterexample: with no file present at any path, parse
succeeds and returns the empty tree instead of failing with an error. -/
theorem c2_missing_config_returns_empty_ok :
    parse (fun _ => none) "config.conf".data none = POutcome.ok ConfList.new ∧
    POutcome.is_err_return (parse (fun _ => none) "config.conf".data none) = false :=
  ⟨rfl, rfl⟩

/-- Claim C2 as amended: a missing or unreadable config file is silently
treated as empty by parse_conf, so parse succeeds and returns the empty
tree; there is no IO error path out of parse. -/
theorem c2_missing_config_silently_empty (fs : FS) (cpath : List Char)
    (h : fs cpath = none) :
    parse fs cpath none = POutcome.ok ConfList.new ∧
    (∀ (spath : List Char) (m : Schema), parse_schema fs spath = Except.ok m →
      parse fs cpath (some spath) = POutcome.ok ConfList.new) := by
  constructor
  · simp only [parse, parse_conf, read_lines, h]
  · intro spath m hm
    simp only [parse, hm, parse_conf, read_lines, h]

/-- Witness for the amended claim C2. -/
theorem c2_missing_config_silently_empty_witness :
    parse (fun _ => none) "c".data none = POutcome.ok ConfList.new :=
  (c2_missing_config_silently_empty (fun _ => none) "c".data rfl).1

/-- Claim C3, counterexample: the value yes under a bool schema entry
makes parse panic (the validation Result is unwrapped) instead of
returning an error; no tree is returned, but neither is an Err. -/
theorem c3_invalid_bool_panics_concrete :
    parse (fun p => if p = "app.conf".data then some ["debug = yes".data]
        else if p = "app.schema".data then some ["debug -> bool".data] else none)
      "app.conf".data (some "app.schema".data)
      = POutcome.panics "Invalid boolean value".data ∧
    POutcome.is_err_return
      (parse (fun p => if p = "app.conf".data then some ["debug = yes".data]
          else if p = "app.schema".data then some ["debug -> bool".data] else none)
        "app.conf".data (some "app.schema".data)) = false :=
  ⟨rfl, rfl⟩

/-- Claim C3 as amended: a config line whose key is declared bool and
whose value is neither true nor false makes the parse call panic with
the message Invalid boolean value (validate's Err is unwrapped inside
parse_conf), rather than returning an error value; no tree reaches the
caller. -/
theorem c3_invalid_bool_panics (fs : FS) (cpath spath : List Char)
    (pre post : List (List Char)) (line k v : List Char)
    (schema : Schema) (m0 : ConfList)
    (h1 : parse_schema fs spath = Except.ok schema)
    (h2 : fs cpath = some (pre ++ line :: post))
    (hp : parse_conf_lines schema ConfList.new pre = Except.ok m0)
    (h3 : parse_line line = some (k, v))
    (h4 : schema k = some SchemaType.Bool)
    (h5 : v ≠ "true".data) (h6 : v ≠ "false".data) :
    parse fs cpath (some spath) = POutcome.panics "Invalid boolean value".data := by
  have hv : validate v SchemaType.Bool = Except.error "Invalid boolean value".data := by
    rw [validate, if_neg h5, if_neg h6]
  have hproc : process_line schema m0 line = Except.error "Invalid boolean value".data := by
    simp only [process_line, h3, h4, hv]
  have hlines : parse_conf_lines schema ConfList.new (pre ++ line :: post)
      = Except.error "Invalid boolean value".data := by
    rw [parse_conf_lines_append pre (line :: post) schema ConfList.new]
    simp only [hp, parse_conf_lines, hproc]
  simp only [parse, h1, parse_conf, read_lines, h2, hlines]

/-- Witness for the amended claim C3. -/
theorem c3_invalid_bool_panics_witness :
    parse (fun p => if p = "c".data then some ["debug = yes".data]
        else if p = "s".data then some ["debug -> bool".data] else none)
      "c".data (some "s".data) = POutcome.panics "Invalid boolean value".data :=
  c3_invalid_bool_panics
    (fun p => if p = "c".data then some ["debug = yes".data]
      else if p = "s".data then some ["debug -> bool".data] else none)
    "c".data "s".data [] [] "debug = yes".data "debug".data "yes".data
    (Schema.empty.insert "debug".data SchemaType.Bool) ConfList.new
    rfl rfl rfl (by decide) rfl (by decide) (by decide)

/-- Claim C4: inserting a value at any non-empty dotted key and then
looking it up along the same dot-separated path, narrowing through
tables with get, returns exactly the inserted value. -/
theorem c4_insert_get_path_round_trip (l : ConfList) (k : List Char) (v : ConfValue)
    (h : k ≠ []) :
    (l.add_value k v).get_path k = some v := by
  rw [ConfList.get_path]
  exact add_value_get_segs_aux k.length k (Nat.le_refl k.length) l v

/-- Witness for claim C4. -/
theorem c4_insert_get_path_round_trip_witness :
    (ConfList.new.add_value "log.file".data (ConfValue.StrValue "x".data)).get_path
      "log.file".data = some (ConfValue.StrValue "x".data) :=
  c4_insert_get_path_round_trip ConfList.new "log.file".data
    (ConfValue.StrValue "x".data) (by decide)

/-- Claim C5, counterexample: after inserting a.b and then a.b.c, the
scalar previously stored at a.b is not discarded from the level under a;
to_vec still enumerates the stale entry next to the new table. -/
theorem c5_scalar_not_discarded_concrete :
    ((ConfList.new.add_value "a.b".data (ConfValue.StrValue "1".data)).add_value
        "a.b.c".data (ConfValue.StrValue "2".data)).to_vec
      = [("a".data, ConfVecValue.Conf
          [("b".data, ConfVecValue.StrValue "1".data),
           ("b".data, ConfVecValue.Conf
             [("c".data, ConfVecValue.StrValue "2".data)])])] := rfl

/-- Claim C5 as amended: after inserting a.b and then a.b.c, lookups see
the nested result (a holds a table whose b lookup yields a table with
c); the old scalar is only shadowed for get by the prepended table node,
not removed: it stays in the level under a behind the new entry. -/
theorem c5_nested_wins_scalar_shadowed (x y : ConfValue) (hx : x.is_scalar = true) :
    ((ConfList.new.add_value "a.b".data x).add_value "a.b.c".data y
      = ConfList.cons "a".data (ConfValue.Conf (ConfList.cons "b".data
          (ConfValue.Conf (ConfList.cons "c".data y ConfList.nil))
          (ConfList.cons "b".data x ConfList.nil))) ConfList.nil)
    ∧ ((ConfList.new.add_value "a.b".data x).add_value "a.b.c".data y).get_path "a.b.c".data
        = some y
    ∧ ((ConfList.new.add_value "a.b".data x).add_value "a.b.c".data y).get_path "a.b".data
        = some (ConfValue.Conf (ConfList.cons "c".data y ConfList.nil)) := by
  cases x with
  | Conf c => exact absurd hx (by simp [ConfValue.is_scalar])
  | StrValue s => exact ⟨rfl, rfl, rfl⟩
  | BoolValue b => exact ⟨rfl, rfl, rfl⟩
  | NumberValue q => exact ⟨rfl, rfl, rfl⟩

/-- Witness for the amended claim C5. -/
theorem c5_nested_wins_scalar_shadowed_witness :
    ((ConfList.new.add_value "a.b".data (ConfValue.BoolValue true)).add_value
        "a.b.c".data (ConfValue.StrValue "2".data)
      = ConfList.cons "a".data (ConfValue.Conf (ConfList.cons "b".data
          (ConfValue.Conf (ConfList.cons "c".data (ConfValue.StrValue "2".data) ConfList.nil))
          (ConfList.cons "b".data (ConfValue.BoolValue true) ConfList.nil))) ConfList.nil)
    ∧ ((ConfList.new.add_value "a.b".data (ConfValue.BoolValue true)).add_value
        "a.b.c".data (ConfValue.StrValue "2".data)).get_path "a.b.c".data
        = some (ConfValue.StrValue "2".data)
    ∧ ((ConfList.new.add_value "a.b".data (ConfValue.BoolValue true)).add_value
        "a.b.c".data (ConfValue.StrValue "2".data)).get_path "a.b".data
        = some (ConfValue.Conf (ConfList.cons "c".data (ConfValue.StrValue "2".data)
            ConfList.nil)) :=
  c5_nested_wins_scalar_shadowed (ConfValue.BoolValue true) (ConfValue.StrValue "2".data) rfl

/-- Claim C6: a schema line whose type name is outside string, bool and
number makes the whole parse fail with the unknown-type error coming
from SchemaType parsing, whatever the config path holds; the config
file plays no part in the outcome and no schema is handed on. -/
theorem c6_unknown_schema_type_aborts (fs : FS) (cpath spath : List Char)
    (pre post : List (List Char)) (line k t : List Char) (m : Schema)
    (h1 : fs spath = some (pre ++ line :: post))
    (h2 : parse_schema_lines Schema.empty pre = Except.ok m)
    (h3 : parse_schema_line line = some (k, t))
    (h4 : t ≠ "string".data) (h5 : t ≠ "bool".data) (h6 : t ≠ "number".data) :
    parse fs cpath (some spath) = POutcome.err ("Invalid type: ".data ++ t) := by
  have hty : SchemaType.from_str t = Except.error ("Invalid type: ".data ++ t) := by
    rw [SchemaType.from_str, if_neg h4, if_neg h5, if_neg h6]
  have hsch : parse_schema fs spath = Except.error ("Invalid type: ".data ++ t) := by
    simp only [parse_schema, read_lines, h1]
    rw [parse_schema_lines_append pre (line :: post) Schema.empty]
    simp only [h2, parse_schema_lines, h3, hty]
  simp only [parse, hsch]

/-- Witness for claim C6. -/
theorem c6_unknown_schema_type_aborts_witness :
    parse (fun p => if p = "s".data then some ["debug -> boolean".data] else none)
      "c".data (some "s".data)
      = POutcome.err ("Invalid type: ".data ++ "boolean".data) :=
  c6_unknown_schema_type_aborts
    (fun p => if p = "s".data then some ["debug -> boolean".data] else none)
    "c".data "s".data [] [] "debug -> boolean".data "debug".data "boolean".data
    Schema.empty rfl rfl rfl (by decide) (by decide) (by decide)

/-- Claim C7: when add_value recurses into an existing table entry at the
head segment, the update is in place: the head entry now holds the
recursively extended table, every sibling segment inside that table
other than the one the recursion touches keeps its value, every other
key at the outer level keeps its value, and the outer level's
enumerated key sequence is unchanged. -/
theorem c7_table_recursion_frame (l : ConfList) (key hd rest : List Char) (v : ConfValue)
    (child : ConfList)
    (hsp : splitFirstChar '.' key = some (hd, rest))
    (hg : l.get hd = some (ConfValue.Conf child)) :
    ((l.add_value key v).get hd = some (ConfValue.Conf (child.add_value rest v)))
    ∧ (∀ seg : List Char, seg ≠ headSeg rest →
        (child.add_value rest v).get seg = child.get seg)
    ∧ (∀ q : List Char, q ≠ hd → (l.add_value key v).get q = l.get q)
    ∧ ((l.add_value key v).to_vec.map Prod.fst = l.to_vec.map Prod.fst) := by
  have hstep := ConfList.add_value_step_conf l key hd rest v child hsp hg
  refine ⟨?_, ?_, ?_, ?_⟩
  · rw [hstep]
    exact ConfList.updateFirst_get_self l hd _ _ hg
  · intro seg hseg
    exact ConfList.add_value_get_frame child rest v seg hseg
  · intro q hq
    rw [hstep]
    exact ConfList.updateFirst_get_other l hd q _ hq
  · rw [hstep]
    exact ConfList.updateFirst_to_vec_keys l hd _

/-- Witness for claim C7. -/
theorem c7_table_recursion_frame_witness :
    (((ConfList.cons "a".data (ConfValue.Conf (ConfList.cons "x".data
          (ConfValue.StrValue "0".data) ConfList.nil)) ConfList.nil).add_value
        "a.b".data (ConfValue.StrValue "9".data)).get "a".data
      = some (ConfValue.Conf ((ConfList.cons "x".data (ConfValue.StrValue "0".data)
          ConfList.nil).add_value "b".data (ConfValue.StrValue "9".data))))
    ∧ (((ConfList.cons "x".data (ConfValue.StrValue "0".data) ConfList.nil).add_value
        "b".data (ConfValue.StrValue "9".data)).get "x".data
      = (ConfList.cons "x".data (ConfValue.StrValue "0".data) ConfList.nil).get "x".data)
    ∧ (((ConfList.cons "a".data (ConfValue.Conf (ConfList.cons "x".data
          (ConfValue.StrValue "0".data) ConfList.nil)) ConfList.nil).add_value
        "a.b".data (ConfValue.StrValue "9".data)).get "z".data
      = (ConfList.cons "a".data (ConfValue.Conf (ConfList.cons "x".data
          (ConfValue.StrValue "0".data) ConfList.nil)) ConfList.nil).get "z".data)
    ∧ (((ConfList.cons "a".data (ConfValue.Conf (ConfList.cons "x".data
          (ConfValue.StrValue "0".data) ConfList.nil)) ConfList.nil).add_value
        "a.b".data (ConfValue.StrValue "9".data)).to_vec.map Prod.fst
      = (ConfList.cons "a".data (ConfValue.Conf (ConfList.cons "x".data
          (ConfValue.StrValue "0".data) ConfList.nil)) ConfList.nil).to_vec.map Prod.fst) := by
  have h := c7_table_recursion_frame
    (ConfList.cons "a".data (ConfValue.Conf (ConfList.cons "x".data
      (ConfValue.StrValue "0".data) ConfList.nil)) ConfList.nil)
    "a.b".data "a".data "b".data (ConfValue.StrValue "9".data)
    (ConfList.cons "x".data (ConfValue.StrValue "0".data) ConfList.nil)
    (by decide) rfl
  exact ⟨h.1, h.2.1 "x".data (by decide), h.2.2.1 "z".data (by decide), h.2.2.2⟩

/-- Claim C8: the config line tokenizer behaves exactly as described,
returning None for blank lines, comment lines and lines without an
equals sign or with an empty trimmed piece, and the trimmed key and
value pair otherwise. -/
theorem c8_parse_line_characterization (line : List Char) :
    parse_line line = parse_line_claim line := by
  by_cases h1 : trim line = []
  · simp [parse_line, parse_line_claim, h1]
  · by_cases h2 : (trim line).head? = some '#' ∨ (trim line).head? = some ';'
    · have h2b : (startsWithChar '#' (trim line) || startsWithChar ';' (trim line)) = true := by
        rcases h2 with h | h
        · simp [startsWithChar_head, h]
        · simp [startsWithChar_head, h]
      simp [parse_line, parse_line_claim, h1, h2, h2b]
    · have h2b : ¬ ((startsWithChar '#' (trim line) || startsWithChar ';' (trim line)) = true) := by
        simp only [Bool.or_eq_true, startsWithChar_head]
        exact h2
      cases hsp : splitFirstChar '=' line with
      | none => simp [parse_line, parse_line_claim, h1, h2, h2b, hsp]
      | some p =>
        obtain ⟨a, b⟩ := p
        by_cases h3 : trim a = [] ∨ trim b = []
        · simp [parse_line, parse_line_claim, h1, h2, h2b, hsp, h3]
        · simp [parse_line, parse_line_claim, h1, h2, h2b, hsp, h3]

/-- Claim C9: the schema tokenizer applies no comment rule; a line whose
trimmed form starts with a hash or semicolon but carries an arrow with
non-empty trimmed pieces on both sides still tokenizes to a pair. -/
theorem c9_schema_line_ignores_comments (line a b : List Char)
    (hc : (trim line).head? = some '#' ∨ (trim line).head? = some ';')
    (hs : split_by_str (trim line) "->".data = some [a, b])
    (ha : trim a ≠ []) (hb : trim b ≠ []) :
    parse_schema_line line = some (trim a, trim b) := by
  have hne : trim line ≠ [] := by
    intro h0
    rw [h0] at hc
    rcases hc with h | h
    · exact Option.noConfusion h
    · exact Option.noConfusion h
  simp only [parse_schema_line, if_neg hne, hs]
  simp [ha, hb]

/-- Witness for claim C9. -/
theorem c9_schema_line_ignores_comments_witness :
    parse_schema_line "# debug -> bool".data
      = some (trim "# debug ".data, trim " bool".data) :=
  c9_schema_line_ignores_comments "# debug -> bool".data "# debug ".data " bool".data
    (Or.inl (by decide)) (by decide) (by decide) (by decide)

/-- Claim C10: when every schema line is well formed or skipped, loading
succeeds, and a key declared on several lines ends up bound to the type
of the last such line, which is then the type process_line coerces that
key's config values with. -/
theorem c10_last_schema_decl_wins (fs : FS) (spath k t : List Char) (ty : SchemaType)
    (lines : List (List Char))
    (h0 : fs spath = some lines)
    (h1 : schema_lines_ok lines = true)
    (h2 : last_decl k lines = some t)
    (h3 : SchemaType.from_str t = Except.ok ty) :
    ∃ m : Schema, parse_schema fs spath = Except.ok m ∧ m k = some ty ∧
      (∀ (acc : ConfList) (line v : List Char), parse_line line = some (k, v) →
        process_line m acc line =
          match validate v ty with
          | Except.ok tv => Except.ok (acc.add_value k tv)
          | Except.error e => Except.error e) := by
  obtain ⟨m, hm⟩ := parse_schema_lines_total lines Schema.empty h1
  have hk : m k = some ty :=
    parse_schema_lines_last_decl lines Schema.empty m k t ty h2 h3 hm
  refine ⟨m, ?_, hk, ?_⟩
  · simp only [parse_schema, read_lines, h0]
    exact hm
  · intro acc line v hpl
    simp only [process_line, hpl, hk]

/-- Witness for claim C10: the same key declared twice, string then bool,
ends up bound to bool. -/
theorem c10_last_schema_decl_wins_witness :
    ∃ m : Schema,
      parse_schema (fun p => if p = "s".data
          then some ["debug -> string".data, "debug -> bool".data] else none) "s".data
        = Except.ok m
      ∧ m "debug".data = some SchemaType.Bool := by
  obtain ⟨m, hok, hk, _⟩ := c10_last_schema_decl_wins
    (fun p => if p = "s".data
      then some ["debug -> string".data, "debug -> bool".data] else none)
    "s".data "debug".data "bool".data SchemaType.Bool
    ["debug -> string".data, "debug -> bool".data] rfl rfl rfl rfl
  exact ⟨m, hok, hk⟩

end Conf
